import Mathlib

/-!
Shallow embedding of the pgexplain execution-plan analysis engine
(package cmd: the cost extractor `parseCost`, the plan context walker
`parseExplainForIndexes`, and the recommendation generator
`generateIndexRecommendations`), translated line by line from the Go
source.  Plan text is a `String`; float64 cost values are modelled as
exact rationals (the parsed literals are short decimal numerals, and the
engine only compares costs, never does arithmetic on them); int64 row
estimates are modelled as `ℤ` with the parse clamped at 2^63 - 1 exactly
as strconv.ParseInt reports on overflow (the error is ignored by the
caller, which keeps the clamped value).  The Go regular expressions are
embedded as explicit leftmost-match scanners over character lists,
following RE2 leftmost-first (backtracking-equivalent) semantics of each
concrete pattern.
-/

/-! ### Character classes of the Go regular expressions -/

/-- Word character class of the Go regexp escape for words: ASCII letters,
digits and underscore. -/
def isWordCh (c : Char) : Bool := c.isAlphanum || c = '_'

/-- Whitespace class of the Go regexp escape for spaces:
tab, newline, form feed, carriage return, space. -/
def isRegexSpaceCh (c : Char) : Bool :=
  c = ' ' || c = '\t' || c = '\n' || c = '\x0c' || c = '\r'

/-- Unicode whitespace as tested by Go unicode.IsSpace, used by
strings.TrimSpace and strings.Fields. -/
def isGoSpace (c : Char) : Bool :=
  c = ' ' || c = '\t' || c = '\n' || c = '\x0b' || c = '\x0c' || c = '\r' ||
  c.toNat = 0x85 || c.toNat = 0xA0 || c.toNat = 0x1680 ||
  (0x2000 ≤ c.toNat && c.toNat ≤ 0x200A) ||
  c.toNat = 0x2028 || c.toNat = 0x2029 || c.toNat = 0x202F ||
  c.toNat = 0x205F || c.toNat = 0x3000

/-! ### String helpers mirroring the Go strings package -/

/-- The first list is an initial segment of the second. -/
def listStarts : List Char → List Char → Bool
  | [], _ => true
  | _ :: _, [] => false
  | p :: ps, c :: cs => p = c && listStarts ps cs

/-- strings.HasPrefix s pre. -/
def goStartsWith (s pre : String) : Bool := listStarts pre.toList s.toList

/-- sub occurs contiguously inside the list. -/
def listHasSub (sub : List Char) : List Char → Bool
  | [] => listStarts sub []
  | c :: cs => listStarts sub (c :: cs) || listHasSub sub cs

/-- strings.Contains s sub. -/
def goContains (s sub : String) : Bool := listHasSub sub.toList s.toList

/-- strings.TrimSpace. -/
def goTrimSpace (s : String) : String :=
  ⟨((s.toList.dropWhile isGoSpace).reverse.dropWhile isGoSpace).reverse⟩

/-- strings.TrimSuffix s suf. -/
def goTrimSuffix (s suf : String) : String :=
  if listStarts suf.toList.reverse s.toList.reverse then
    ⟨(s.toList.reverse.drop suf.toList.length).reverse⟩
  else s

/-- Split a character list at every character satisfying p; empty fields
are kept and the result is always non-empty. -/
def splitWhen (p : Char → Bool) (cs : List Char) : List (List Char) :=
  cs.foldr
    (fun c acc =>
      match acc with
      | [] => [[c]]
      | a :: rest => if p c then [] :: a :: rest else (c :: a) :: rest)
    [[]]

/-- strings.Split s sep for a one-character separator string. -/
def goSplit (s : String) (sep : Char) : List String :=
  (splitWhen (fun c => c = sep) s.toList).map (fun l => ⟨l⟩)

/-- strings.Fields: the maximal runs of non-whitespace characters. -/
def goFields (s : String) : List String :=
  ((splitWhen isGoSpace s.toList).filter (fun l => !l.isEmpty)).map (fun l => ⟨l⟩)

/-! ### Decimal numerals -/

/-- Numeric value of a run of ASCII digits. -/
def digitsToNat (ds : List Char) : ℕ :=
  ds.foldl (fun acc c => 10 * acc + (c.toNat - '0'.toNat)) 0

/-- Exact rational value of the decimal literal intPart.fracPart, as parsed
by strconv.ParseFloat; float64 rounding is abstracted to the exact value. -/
def decToRat (intPart fracPart : List Char) : ℚ :=
  Rat.divInt
    ((digitsToNat intPart * 10 ^ fracPart.length + digitsToNat fracPart : ℕ) : ℤ)
    ((10 : ℤ) ^ fracPart.length)

/-! ### Embedded regular-expression scanners

Each Go pattern from the source is embedded as an explicit scanner that
tries every start position from the left and, at each position, follows
the deterministic backtracking behaviour of that concrete pattern. -/

/-- First position of the list where f yields a value. -/
def firstSome {α β : Type} (f : α → Option β) : List α → Option β
  | [] => none
  | a :: as =>
    match f a with
    | some b => some b
    | none => firstSome f as

/-- Tail of the cost pattern after the literal "cost=": the first capture
group (digits, an optional dot, digits) followed by the two literal dots.
Greedily takes the optional dot with the following digits when the two
literal dots still fit afterwards, otherwise backtracks the optional dot
to empty.  Returns the remainder after the two literal dots. -/
def costTail (cs : List Char) : Option (List Char) :=
  let d1 := cs.takeWhile Char.isDigit
  if d1.isEmpty then none
  else
    match cs.drop d1.length with
    | '.' :: r2 =>
      let d2 := r2.takeWhile Char.isDigit
      if listStarts ['.', '.'] (r2.drop d2.length) then
        some ((r2.drop d2.length).drop 2)
      else
        match r2 with
        | '.' :: r4 => some r4
        | _ => none
    | _ => none

/-- Second capture group of the cost pattern: digits, then greedily an
optional dot with trailing digits; yields its exact decimal value. -/
def numAt (cs : List Char) : Option ℚ :=
  let d := cs.takeWhile Char.isDigit
  if d.isEmpty then none
  else
    match cs.drop d.length with
    | '.' :: r2 => some (decToRat d (r2.takeWhile Char.isDigit))
    | _ => some (decToRat d [])

/-- Whole cost pattern anchored at the start of cs. -/
def costMatchAt (cs : List Char) : Option ℚ :=
  if listStarts "cost=".toList cs then
    match costTail (cs.drop 5) with
    | some rest => numAt rest
    | none => none
  else none

/-- Leftmost match of the cost pattern: value of the high cost (second
capture group) of the first position where the whole pattern matches. -/
def costScan : List Char → Option ℚ
  | [] => none
  | c :: cs =>
    match costMatchAt (c :: cs) with
    | some v => some v
    | none => costScan cs

/-- costRegex applied to one line; the high cost when the line carries a
parseable cost annotation. -/
def lineCost (line : String) : Option ℚ := costScan line.toList

/-- rows pattern anchored at the start of cs: literal "rows=" then one or
more digits, taken greedily. -/
def rowsMatchAt (cs : List Char) : Option ℕ :=
  if listStarts "rows=".toList cs then
    let ds := (cs.drop 5).takeWhile Char.isDigit
    if ds.isEmpty then none else some (digitsToNat ds)
  else none

/-- Leftmost match of the rows pattern. -/
def rowsScan : List Char → Option ℕ
  | [] => none
  | c :: cs =>
    match rowsMatchAt (c :: cs) with
    | some v => some v
    | none => rowsScan cs

/-- strconv.ParseInt with bit size 64 on a digit run: on overflow it
reports an error together with the clamped value 2^63 - 1, and the caller
ignores the error and keeps the value. -/
def int64OfNat (n : ℕ) : ℤ :=
  if n ≤ 9223372036854775807 then (n : ℤ) else 9223372036854775807

/-- The scan-kind alternatives of tableNameRegex, in alternation order. -/
def scanKinds : List String :=
  ["Seq Scan", "Parallel Seq Scan", "Index Scan", "Index Only Scan", "Bitmap Heap Scan"]

/-- One alternative of tableNameRegex anchored at cs: the scan-kind
literal, one or more whitespace, the literal "on", one or more
whitespace, then the captured word (taken greedily). -/
def tableAltAt (cs : List Char) (alt : List Char) : Option String :=
  if listStarts alt cs then
    let r1 := cs.drop alt.length
    let sp1 := r1.takeWhile isRegexSpaceCh
    if sp1.isEmpty then none
    else
      let r2 := r1.drop sp1.length
      if listStarts "on".toList r2 then
        let r3 := r2.drop 2
        let sp2 := r3.takeWhile isRegexSpaceCh
        if sp2.isEmpty then none
        else
          let w := (r3.drop sp2.length).takeWhile isWordCh
          if w.isEmpty then none else some ⟨w⟩
      else none
  else none

/-- tableNameRegex anchored at one position: the alternatives are tried in
order (at a fixed position at most one literal can apply). -/
def tableMatchAt (cs : List Char) : Option String :=
  firstSome (tableAltAt cs) (scanKinds.map String.toList)

/-- Leftmost match of tableNameRegex over the character list. -/
def tableScan : List Char → Option String
  | [] => none
  | c :: cs =>
    match tableMatchAt (c :: cs) with
    | some t => some t
    | none => tableScan cs

/-- FindStringSubmatch of tableNameRegex on a line: the captured table
name of the leftmost match. -/
def extractTableName (line : String) : Option String := tableScan line.toList

/-- Label pattern of filterRegex, hashCondRegex and mergeCondRegex
anchored at cs: the label literal, optional whitespace, an opening
parenthesis, then the capture running to the first closing parenthesis,
which must be non-empty and must exist.  For these concrete patterns the
leftmost-first semantics always stops the capture at the first closing
parenthesis (the nested alternation of filterRegex never engages, because
the greedy first branch already succeeds whenever a closing parenthesis
exists). -/
def parenAfterAt (lab : List Char) (cs : List Char) : Option (List Char) :=
  if listStarts lab cs then
    match (cs.drop lab.length).dropWhile isRegexSpaceCh with
    | '(' :: r2 =>
      let content := r2.takeWhile (fun c => !(c = ')'))
      if content.isEmpty then none
      else if (r2.drop content.length).isEmpty then none
      else some content
    | _ => none
  else none

/-- Leftmost occurrence of the label pattern over the character list. -/
def labParenScan (lab : List Char) : List Char → Option (List Char)
  | [] => none
  | c :: cs =>
    match parenAfterAt lab (c :: cs) with
    | some e => some e
    | none => labParenScan lab cs

/-- The comparison-operator alternatives of filterColumnRegex, in
alternation order. -/
def condOps : List String :=
  ["=", ">", "<", ">=", "<=", "!=", "<>", "~~", "LIKE", "IN", "IS"]

/-- First operator alternative that is a literal head of cs, with the
remainder after it. -/
def opAt (cs : List Char) : Option (List Char × List Char) :=
  firstSome
    (fun op => if listStarts op cs then some (op, cs.drop op.length) else none)
    (condOps.map String.toList)

/-- Backtracking over the captured word of filterColumnRegex: the word is
taken greedily and shortened one character at a time (the dropped
characters land back in front of the remainder) until optional whitespace
followed by an operator alternative fits.  preRev is the current word in
reverse. -/
def shrinkCol : List Char → List Char → Option (List Char × List Char × List Char)
  | [], _ => none
  | c :: rest', suf =>
    match opAt (suf.dropWhile isRegexSpaceCh) with
    | some (op, r) => some ((c :: rest').reverse, op, r)
    | none => shrinkCol rest' (c :: suf)

/-- filterColumnRegex anchored at a word boundary: the captured column,
whether the consumed operator ends in a word character (this decides the
word boundary for the next search), and the remainder. -/
def colAt (cs : List Char) : Option (String × Bool × List Char) :=
  let w := cs.takeWhile isWordCh
  if w.isEmpty then none
  else
    match shrinkCol w.reverse (cs.drop w.length) with
    | some (col, op, rest) => some (⟨col⟩, isWordCh (op.getLastD ' '), rest)
    | none => none

/-- FindAllStringSubmatch of filterColumnRegex: scan left to right,
starting matches only at word boundaries, continuing after the consumed
text of each match.  The fuel starts at the list length, an upper bound
on the number of steps since every step consumes at least one character. -/
def filterColsGo : ℕ → Bool → List Char → List String → List String
  | 0, _, _, acc => acc
  | _ + 1, _, [], acc => acc
  | fuel + 1, prevWord, c :: tl, acc =>
    if !prevWord && isWordCh c then
      match colAt (c :: tl) with
      | some (col, endsWord, rest) => filterColsGo fuel endsWord rest (acc ++ [col])
      | none => filterColsGo fuel (isWordCh c) tl acc
    else filterColsGo fuel (isWordCh c) tl acc

/-- All captured columns of filterColumnRegex over a filter expression. -/
def filterColsOf (expr : List Char) : List String :=
  filterColsGo expr.length false expr []

/-- joinColumnRegex anchored at cs: word, dot, word, optional whitespace,
equals sign, optional whitespace, word, dot, word; all words taken
greedily (shortening a greedy word never rescues this pattern, since the
following literal is never a word character). -/
def joinPairAt (cs : List Char) : Option (String × String × String × String) :=
  let a := cs.takeWhile isWordCh
  if a.isEmpty then none
  else
    match cs.drop a.length with
    | '.' :: r2 =>
      let b := r2.takeWhile isWordCh
      if b.isEmpty then none
      else
        match (r2.drop b.length).dropWhile isRegexSpaceCh with
        | '=' :: r5 =>
          let r6 := r5.dropWhile isRegexSpaceCh
          let c := r6.takeWhile isWordCh
          if c.isEmpty then none
          else
            match r6.drop c.length with
            | '.' :: r8 =>
              let d := r8.takeWhile isWordCh
              if d.isEmpty then none else some (⟨a⟩, ⟨b⟩, ⟨c⟩, ⟨d⟩)
            | _ => none
        | _ => none
    | _ => none

/-- FindStringSubmatch of joinColumnRegex: captures of the leftmost
match. -/
def joinPairScan : List Char → Option (String × String × String × String)
  | [] => none
  | c :: cs =>
    match joinPairAt (c :: cs) with
    | some p => some p
    | none => joinPairScan cs

/-- sortKeyRegex anchored at cs: the literal "Sort Key:", greedy optional
whitespace, then the capture taking everything to the end of the line;
when only whitespace remains, the greedy whitespace backtracks one
character so that the capture is the final whitespace character. -/
def sortKeyAt (cs : List Char) : Option (List Char) :=
  if listStarts "Sort Key:".toList cs then
    let r := cs.drop 9
    let body := r.dropWhile isRegexSpaceCh
    if !body.isEmpty then some body
    else
      match r.reverse with
      | [] => none
      | c :: _ => some [c]
  else none

/-- FindStringSubmatch of sortKeyRegex: capture of the leftmost match. -/
def sortKeyScan : List Char → Option (List Char)
  | [] => none
  | c :: cs =>
    match sortKeyAt (c :: cs) with
    | some e => some e
    | none => sortKeyScan cs

/-! ### Operation-type classifier (extractOperationType) -/

/-- The closed operation vocabulary, in the order the source tests it. -/
def operationVocab : List String :=
  ["Seq Scan", "Index Scan", "Index Only Scan", "Bitmap Heap Scan",
   "Bitmap Index Scan", "Nested Loop", "Hash Join", "Merge Join",
   "Sort", "Aggregate", "Hash", "Materialize", "Gather", "Parallel Seq Scan"]

/-- extractOperationType: first vocabulary entry contained in the trimmed
line, else the first one or two whitespace-delimited fields, else the
literal fallback. -/
def extractOperationType (line : String) : String :=
  let trimmed := goTrimSpace line
  match operationVocab.find? (fun op => goContains trimmed op) with
  | some op => op
  | none =>
    match goFields trimmed with
    | p0 :: p1 :: _ => p0 ++ " " ++ p1
    | [p0] => p0
    | [] => "Unknown Operation"

/-! ### Cost extractor (parseCost) -/

/-- One expensive operation collected by the cost extractor. -/
structure ExpensiveOperation where
  Operation : String
  Cost : ℚ
  Line : String
deriving DecidableEq

/-- Aggregate result of the cost extractor. -/
structure CostInfo where
  TotalCost : ℚ
  ExpensiveOps : List ExpensiveOperation
  ExceedsLimit : Bool
  ThresholdValue : ℚ
deriving DecidableEq

/-- Body of the per-line loop of parseCost: skip the line unless it has a
parseable cost; keep the running maximum of the high costs; collect the
line as an expensive operation when its cost reaches the threshold. -/
def parseCostStep (threshold : ℚ) (info : CostInfo) (line : String) : CostInfo :=
  match lineCost line with
  | none => info
  | some c =>
    let info1 := if info.TotalCost < c then { info with TotalCost := c } else info
    if threshold ≤ c then
      { info1 with
          ExpensiveOps :=
            info1.ExpensiveOps ++ [⟨extractOperationType line, c, goTrimSpace line⟩] }
    else info1

/-- parseCost: fold the per-line step over the lines of the plan, then
set the flag when the total reaches the threshold. -/
def parseCost (plan : String) (threshold : ℚ) : CostInfo :=
  let info := (goSplit plan '\n').foldl (parseCostStep threshold) ⟨0, [], false, threshold⟩
  if threshold ≤ info.TotalCost then { info with ExceedsLimit := true } else info

/-! ### Plan context walker (parseExplainForIndexes) -/

/-- Parsed information about a single qualifying EXPLAIN line. -/
structure OperationContext where
  Line : String
  OperationType : String
  TableName : String
  FilterColumns : List String
  JoinColumns : List String
  SortColumns : List String
  Cost : ℚ
  RowsEstimate : ℤ
deriving DecidableEq

/-- Append each key item of a Sort Key list: trim, strip a trailing
" DESC" then " ASC", and for a dotted key keep only the part after the
first dot. -/
def sortKeyItem (k : List Char) : List String :=
  let key := goTrimSuffix (goTrimSuffix (goTrimSpace ⟨k⟩) " DESC") " ASC"
  if goContains key "." then
    match goSplit key '.' with
    | _ :: p1 :: _ => [p1]
    | _ => []
  else [key]

/-- Body of the lookahead loop of parseExplainForIndexes for one child
line: extract filter columns (deduplicated against those already
collected), hash join columns, merge join columns and sort keys, in the
order of the source. -/
def childStep (ctx : OperationContext) (nextLine : String) : OperationContext :=
  let cs := nextLine.toList
  let ctx :=
    match labParenScan "Filter:".toList cs with
    | some expr =>
      { ctx with
          FilterColumns :=
            (filterColsOf expr).foldl
              (fun acc col => if acc.contains col then acc else acc ++ [col])
              ctx.FilterColumns }
    | none => ctx
  let ctx :=
    match labParenScan "Hash Cond:".toList cs with
    | some expr =>
      match joinPairScan expr with
      | some (t1, c1, t2, c2) =>
        { ctx with JoinColumns := ctx.JoinColumns ++ [t1 ++ "." ++ c1, t2 ++ "." ++ c2] }
      | none => ctx
    | none => ctx
  let ctx :=
    match labParenScan "Merge Cond:".toList cs with
    | some expr =>
      match joinPairScan expr with
      | some (t1, c1, t2, c2) =>
        { ctx with JoinColumns := ctx.JoinColumns ++ [t1 ++ "." ++ c1, t2 ++ "." ++ c2] }
      | none => ctx
    | none => ctx
  match sortKeyScan cs with
  | some ks =>
    { ctx with SortColumns := ctx.SortColumns ++ ((splitWhen (fun c => c = ',') ks).map sortKeyItem).flatten }
  | none => ctx

/-- Boundary check of the lookahead loop: the child line still belongs to
the current operation when it begins with two spaces or with a tab. -/
def stillIndented (l : String) : Bool := goStartsWith l "  " || goStartsWith l "\t"

/-- The lookahead loop of parseExplainForIndexes: at most n further
lines, breaking at the first line that is not still indented. -/
def lookAhead : OperationContext → ℕ → List String → OperationContext
  | ctx, 0, _ => ctx
  | ctx, _ + 1, [] => ctx
  | ctx, n + 1, l :: ls =>
    if stillIndented l then lookAhead (childStep ctx l) n ls else ctx

/-- The context built from the anchor line alone, before the lookahead. -/
def mkBaseContext (line : String) (cost : ℚ) : OperationContext :=
  { Line := goTrimSpace line
    OperationType := extractOperationType line
    TableName := (extractTableName line).getD ""
    FilterColumns := []
    JoinColumns := []
    SortColumns := []
    Cost := cost
    RowsEstimate :=
      match rowsScan line.toList with
      | some n => int64OfNat n
      | none => 0 }

/-- Body of the outer loop of parseExplainForIndexes for line i: skip
blank lines, lines without a parseable cost, and lines below the
threshold; otherwise build the base context and run the lookahead over
the following lines. -/
def analyzeLine (lines : List String) (threshold : ℚ) (i : ℕ) : Option OperationContext :=
  match lines.get? i with
  | none => none
  | some line =>
    if goTrimSpace line = "" then none
    else
      match lineCost line with
      | none => none
      | some cost =>
        if cost < threshold then none
        else some (lookAhead (mkBaseContext line cost) 4 (lines.drop (i + 1)))

/-- parseExplainForIndexes: one OperationContext per qualifying line, in
line order. -/
def parseExplainForIndexes (plan : String) (threshold : ℚ) : List OperationContext :=
  let lines := goSplit plan '\n'
  (List.range lines.length).filterMap (analyzeLine lines threshold)

/-! ### Recommendation generator (generateIndexRecommendations) -/

/-- A single index recommendation. -/
structure IndexRecommendation where
  TableName : String
  Columns : List String
  IndexType : String
  Reason : String
  OperationType : String
  OperationCost : ℚ
  CreateStatement : String
  Priority : ℤ
deriving DecidableEq

/-- Aggregate of all recommendations. -/
structure IndexRecommendationInfo where
  Recommendations : List IndexRecommendation
  TotalFound : ℕ
  HighPriority : ℕ
  ThresholdUsed : ℚ
deriving DecidableEq

/-- minInt of the source. -/
def minInt (a b : ℤ) : ℤ := if a < b then a else b

/-- calculatePriority: cost tier, then the row bonus, then the join
bonus, each bonus capped at 5. -/
def calculatePriority (cost : ℚ) (rows : ℤ) (operationType : String) : ℤ :=
  let priority : ℤ :=
    if 10000 < cost then 5
    else if 5000 < cost then 4
    else if 1000 < cost then 3
    else if 500 < cost then 2
    else 1
  let priority := if 100000 < rows then minInt 5 (priority + 1) else priority
  if operationType = "join" then minInt 5 (priority + 1) else priority

/-- formatCreateIndexStatement. -/
def formatCreateIndexStatement (rec : IndexRecommendation) : String :=
  "CREATE INDEX " ++ ("idx_" ++ rec.TableName ++ "_" ++ String.intercalate "_" rec.Columns)
    ++ " ON " ++ rec.TableName ++ " USING " ++ rec.IndexType
    ++ " (" ++ String.intercalate ", " rec.Columns ++ ");"

/-- The strict identifier pattern of validateRecommendation: a letter or
underscore followed by letters, digits or underscores, matching the whole
string. -/
def validColumnName (s : String) : Bool :=
  match s.toList with
  | [] => false
  | c :: cs => (c.isAlpha || c = '_') && cs.all (fun d => d.isAlphanum || d = '_')

/-- The reserved system-schema name parts excluded by
validateRecommendation. -/
def systemTables : List String := ["pg_catalog", "information_schema"]

/-- validateRecommendation: table name present, at least one column, not
a system schema, and every column a strict identifier. -/
def validateRecommendation (rec : IndexRecommendation) : Bool :=
  if rec.TableName = "" then false
  else if rec.Columns.isEmpty then false
  else if systemTables.any (fun sys => goStartsWith rec.TableName sys) then false
  else rec.Columns.all validColumnName

/-- The deduplication key "table:column1,column2" of the source. -/
def recKey (rec : IndexRecommendation) : String :=
  rec.TableName ++ ":" ++ String.intercalate "," rec.Columns

/-- Fill in the CreateStatement of a freshly built recommendation, as the
source does right after constructing it. -/
def finishRec (rec : IndexRecommendation) : IndexRecommendation :=
  { rec with CreateStatement := formatCreateIndexStatement rec }

/-- Rule 1 of the generator: sequential scan with filter columns. -/
def rule1Recs (ctx : OperationContext) : List IndexRecommendation :=
  if goContains ctx.OperationType "Seq Scan" && !ctx.FilterColumns.isEmpty then
    ctx.FilterColumns.map (fun col =>
      finishRec
        { TableName := ctx.TableName
          Columns := [col]
          IndexType := "BTREE"
          Reason := "Sequential scan with filter on \x27" ++ col ++ "\x27"
          OperationType := ctx.OperationType
          OperationCost := ctx.Cost
          CreateStatement := ""
          Priority := calculatePriority ctx.Cost ctx.RowsEstimate "filter" })
  else []

/-- Rule 2 of the generator: hash or merge join condition columns; a join
column that does not split into exactly table and column on the dots is
skipped. -/
def rule2Recs (ctx : OperationContext) : List IndexRecommendation :=
  if (goContains ctx.OperationType "Hash Join" || goContains ctx.OperationType "Merge Join")
      && !ctx.JoinColumns.isEmpty then
    ctx.JoinColumns.filterMap (fun joinCol =>
      match goSplit joinCol '.' with
      | [tableName, columnName] =>
        some (finishRec
          { TableName := tableName
            Columns := [columnName]
            IndexType := "BTREE"
            Reason := "Join condition on \x27" ++ tableName ++ "." ++ columnName ++ "\x27"
            OperationType := ctx.OperationType
            OperationCost := ctx.Cost
            CreateStatement := ""
            Priority := calculatePriority ctx.Cost ctx.RowsEstimate "join" })
      | _ => none)
  else []

/-- Rule 3 of the generator: one composite recommendation over the sort
columns. -/
def rule3Recs (ctx : OperationContext) : List IndexRecommendation :=
  if goContains ctx.OperationType "Sort" && !ctx.SortColumns.isEmpty
      && !(ctx.TableName = "") then
    [finishRec
      { TableName := ctx.TableName
        Columns := ctx.SortColumns
        IndexType := "BTREE"
        Reason := "Expensive sort operation on " ++ String.intercalate ", " ctx.SortColumns
        OperationType := ctx.OperationType
        OperationCost := ctx.Cost
        CreateStatement := ""
        Priority := calculatePriority ctx.Cost ctx.RowsEstimate "sort" }]
  else []

/-- All candidate recommendations of one context, in generation order; a
context without a table name is skipped before any rule applies. -/
def contextCandidates (ctx : OperationContext) : List IndexRecommendation :=
  if ctx.TableName = "" then []
  else rule1Recs ctx ++ rule2Recs ctx ++ rule3Recs ctx

/-- The linearized candidate stream of the generation loop. -/
def candidateRecs (contexts : List OperationContext) : List IndexRecommendation :=
  (contexts.map contextCandidates).flatten

/-- Per-candidate step of the generation loop: keep the candidate when it
validates and its key is unseen, and then mark the key seen.  The seen
set of the source is modelled as the list of keys in insertion order. -/
def pushRec (st : List IndexRecommendation × List String) (rec : IndexRecommendation) :
    List IndexRecommendation × List String :=
  if validateRecommendation rec && !st.2.contains (recKey rec) then
    (st.1 ++ [rec], st.2 ++ [recKey rec])
  else st

/-- The deduplicated recommendation list before sorting. -/
def dedupedRecs (contexts : List OperationContext) : List IndexRecommendation :=
  ((candidateRecs contexts).foldl pushRec ([], [])).1

/-- The swap test of sortRecommendations: the candidate at j replaces the
current element at i when it has higher priority, or equal priority and
higher cost. -/
def swapNeeded (cur cand : IndexRecommendation) : Bool :=
  decide (cur.Priority < cand.Priority)
    || (decide (cand.Priority = cur.Priority) && decide (cur.OperationCost < cand.OperationCost))

/-- Inner loop of sortRecommendations starting at position i: walk the
tail once; whenever the element x beats the current front, swap them (x
becomes the new front, the old front takes the place of x). -/
def selectPass (cur : IndexRecommendation) :
    List IndexRecommendation → IndexRecommendation × List IndexRecommendation
  | [] => (cur, [])
  | x :: xs =>
    if swapNeeded cur x then
      ((selectPass x xs).1, cur :: (selectPass x xs).2)
    else
      ((selectPass cur xs).1, x :: (selectPass cur xs).2)

/-- Outer loop of sortRecommendations; the fuel is the number of outer
iterations, which the source runs exactly once per position. -/
def sortPasses : ℕ → List IndexRecommendation → List IndexRecommendation
  | 0, l => l
  | _ + 1, [] => []
  | n + 1, h :: t => (selectPass h t).1 :: sortPasses n (selectPass h t).2

/-- sortRecommendations: exchange sort by priority descending, then cost
descending. -/
def sortRecommendations (l : List IndexRecommendation) : List IndexRecommendation :=
  sortPasses l.length l

/-- generateIndexRecommendations: deduplicate the candidate stream, sort,
and count the total and the high-priority entries. -/
def generateIndexRecommendations (contexts : List OperationContext) (threshold : ℚ) :
    IndexRecommendationInfo :=
  let recs := sortRecommendations (dedupedRecs contexts)
  { Recommendations := recs
    TotalFound := recs.length
    HighPriority := (recs.filter (fun rec => 4 ≤ rec.Priority)).length
    ThresholdUsed := threshold }

/-- analyzeIndexOpportunities: the full pipeline. -/
def analyzeIndexOpportunities (plan : String) (threshold : ℚ) : IndexRecommendationInfo :=
  generateIndexRecommendations (parseExplainForIndexes plan threshold) threshold

/-! ### Spec-side comparison definitions

These definitions follow the words of the specification and of the
claims, to be compared with the source-derived definitions above. -/

/-- Priority as the spec words it: a single cap of the cost tier plus the
row bonus plus the join bonus. -/
def specPriority (cost : ℚ) (rows : ℤ) (operationType : String) : ℤ :=
  min 5
    ((if 10000 < cost then 5
      else if 5000 < cost then 4
      else if 1000 < cost then 3
      else if 500 < cost then 2
      else (1 : ℤ))
      + (if 100000 < rows then 1 else 0)
      + (if operationType = "join" then 1 else 0))

/-- First-occurrence-wins deduplication by key of a candidate list, as
the spec words it; seen is the set of keys already taken. -/
def dedupByKey (seen : List String) : List IndexRecommendation → List IndexRecommendation
  | [] => []
  | r :: rs =>
    if seen.contains (recKey r) then dedupByKey seen rs
    else r :: dedupByKey (recKey r :: seen) rs

/-- Boundary check as claim C3 words it: a single space or a tab prefix
counts as still indented. -/
def stillIndentedClaim (l : String) : Bool := goStartsWith l " " || goStartsWith l "\t"

/-- The lookahead loop with the boundary check of claim C3. -/
def lookAheadClaim : OperationContext → ℕ → List String → OperationContext
  | ctx, 0, _ => ctx
  | ctx, _ + 1, [] => ctx
  | ctx, n + 1, l :: ls =>
    if stillIndentedClaim l then lookAheadClaim (childStep ctx l) n ls else ctx

/-- The per-line walker body with the boundary check of claim C3. -/
def analyzeLineClaim (lines : List String) (threshold : ℚ) (i : ℕ) : Option OperationContext :=
  match lines.get? i with
  | none => none
  | some line =>
    if goTrimSpace line = "" then none
    else
      match lineCost line with
      | none => none
      | some cost =>
        if cost < threshold then none
        else some (lookAheadClaim (mkBaseContext line cost) 4 (lines.drop (i + 1)))

/-- The plan context walker as claim C3 describes it, differing from
parseExplainForIndexes only in the boundary check of the lookahead. -/
def parseExplainForIndexesClaim (plan : String) (threshold : ℚ) : List OperationContext :=
  let lines := goSplit plan '\n'
  (List.range lines.length).filterMap (analyzeLineClaim lines threshold)

/-- The Go loop accumulates exactly the per-line expensive operation of
this function. -/
def lineExpensive (t : ℚ) (line : String) : Option ExpensiveOperation :=
  match lineCost line with
  | some c =>
    if t ≤ c then some ⟨extractOperationType line, c, goTrimSpace line⟩ else none
  | none => none

/-- The non-strict order the sort establishes: lower priority first when
read backwards, so that the list is produced in descending order. -/
def recLE (a b : IndexRecommendation) : Prop :=
  a.Priority < b.Priority ∨ (a.Priority = b.Priority ∧ a.OperationCost ≤ b.OperationCost)

/-! ### Lemmas: cost extractor -/

theorem decToRat_nonneg (i f : List Char) : 0 ≤ decToRat i f := by
  unfold decToRat
  apply Rat.divInt_nonneg <;> positivity

theorem numAt_nonneg {cs : List Char} {q : ℚ} (h : numAt cs = some q) : 0 ≤ q := by
  unfold numAt at h
  simp only [] at h
  split at h
  · exact absurd h (by simp)
  · split at h <;> · injection h with h; exact h ▸ decToRat_nonneg _ _

theorem costMatchAt_nonneg {cs : List Char} {q : ℚ} (h : costMatchAt cs = some q) : 0 ≤ q := by
  unfold costMatchAt at h
  split at h
  · split at h
    · exact numAt_nonneg h
    · exact absurd h (by simp)
  · exact absurd h (by simp)

theorem costScan_nonneg {cs : List Char} {q : ℚ} (h : costScan cs = some q) : 0 ≤ q := by
  induction cs with
  | nil => exact absurd h (by simp [costScan])
  | cons c tl ih =>
    rw [costScan] at h
    split at h
    · injection h with h; subst h; exact costMatchAt_nonneg (by assumption)
    · exact ih h

theorem lineCost_nonneg {line : String} {q : ℚ} (h : lineCost line = some q) : 0 ≤ q :=
  costScan_nonneg h

theorem if_lt_max (a c : ℚ) : (if a < c then c else a) = max a c := by
  rcases le_total a c with h | h
  · rcases eq_or_lt_of_le h with rfl | hlt
    · simp
    · simp [hlt, max_eq_right h]
  · simp [not_lt.mpr h, max_eq_left h]

theorem parseCostStep_total (t : ℚ) (info : CostInfo) (line : String) :
    (parseCostStep t info line).TotalCost =
      match lineCost line with
      | some c => max info.TotalCost c
      | none => info.TotalCost := by
  unfold parseCostStep
  cases h : lineCost line with
  | none => rfl
  | some c =>
    simp only
    rw [← if_lt_max]
    by_cases h1 : info.TotalCost < c <;> by_cases h2 : t ≤ c <;> simp [h1, h2]

theorem parseCostStep_ops (t : ℚ) (info : CostInfo) (line : String) :
    (parseCostStep t info line).ExpensiveOps =
      info.ExpensiveOps ++ (lineExpensive t line).toList := by
  unfold parseCostStep lineExpensive
  cases h : lineCost line with
  | none => simp
  | some c =>
    by_cases h1 : info.TotalCost < c <;> by_cases h2 : t ≤ c <;> simp [h1, h2]

theorem parseCostStep_flag (t : ℚ) (info : CostInfo) (line : String) :
    (parseCostStep t info line).ExceedsLimit = info.ExceedsLimit := by
  unfold parseCostStep
  cases h : lineCost line with
  | none => rfl
  | some c =>
    by_cases h1 : info.TotalCost < c <;> by_cases h2 : t ≤ c <;> simp [h1, h2]

theorem costFold_total (lines : List String) (t : ℚ) (info : CostInfo) :
    (lines.foldl (parseCostStep t) info).TotalCost =
      (lines.filterMap lineCost).foldl max info.TotalCost := by
  induction lines generalizing info with
  | nil => rfl
  | cons l ls ih =>
    rw [List.foldl_cons, List.filterMap_cons, ih]
    cases h : lineCost l with
    | none => rw [parseCostStep_total]; simp [h]
    | some c => simp only [List.foldl_cons]; rw [parseCostStep_total]; simp [h]

theorem costFold_ops (lines : List String) (t : ℚ) (info : CostInfo) :
    (lines.foldl (parseCostStep t) info).ExpensiveOps =
      info.ExpensiveOps ++ lines.filterMap (lineExpensive t) := by
  induction lines generalizing info with
  | nil => simp
  | cons l ls ih =>
    rw [List.foldl_cons, List.filterMap_cons, ih, parseCostStep_ops]
    cases h : lineExpensive t l with
    | none => simp [h]
    | some op => simp [h]

theorem costFold_flag (lines : List String) (t : ℚ) (info : CostInfo) :
    (lines.foldl (parseCostStep t) info).ExceedsLimit = info.ExceedsLimit := by
  induction lines generalizing info with
  | nil => rfl
  | cons l ls ih => rw [List.foldl_cons, ih, parseCostStep_flag]

theorem foldlMax_init_le (l : List ℚ) (a : ℚ) : a ≤ l.foldl max a := by
  induction l generalizing a with
  | nil => exact le_refl a
  | cons x xs ih => exact le_trans (le_max_left a x) (ih (max a x))

theorem foldlMax_mem_le (l : List ℚ) (a : ℚ) : ∀ x ∈ l, x ≤ l.foldl max a := by
  induction l generalizing a with
  | nil => intro x hx; cases hx
  | cons y ys ih =>
    intro x hx
    rcases List.mem_cons.mp hx with rfl | hx
    · exact le_trans (le_max_right a x) (foldlMax_init_le ys (max a x))
    · exact ih (max a y) x hx

theorem foldlMax_eq_or_mem (l : List ℚ) (a : ℚ) :
    l.foldl max a = a ∨ l.foldl max a ∈ l := by
  induction l generalizing a with
  | nil => exact Or.inl rfl
  | cons x xs ih =>
    rw [List.foldl_cons]
    rcases ih (max a x) with h | h
    · rcases max_choice a x with hm | hm
      · exact Or.inl (h.trans hm)
      · exact Or.inr (by rw [h, hm]; exact List.mem_cons_self x xs)
    · exact Or.inr (List.mem_cons_of_mem x h)

theorem parseCost_total (plan : String) (t : ℚ) :
    (parseCost plan t).TotalCost = ((goSplit plan '\n').filterMap lineCost).foldl max 0 := by
  unfold parseCost
  simp only []
  split <;> simpa using costFold_total (goSplit plan '\n') t ⟨0, [], false, t⟩

theorem parseCost_ops (plan : String) (t : ℚ) :
    (parseCost plan t).ExpensiveOps = (goSplit plan '\n').filterMap (lineExpensive t) := by
  unfold parseCost
  simp only []
  split <;> simpa using costFold_ops (goSplit plan '\n') t ⟨0, [], false, t⟩

theorem parseCost_flag (plan : String) (t : ℚ) :
    (parseCost plan t).ExceedsLimit = decide (t ≤ (parseCost plan t).TotalCost) := by
  unfold parseCost
  simp only []
  split <;> rename_i h
  · simpa using h
  · have hfl : ((goSplit plan '\n').foldl (parseCostStep t) ⟨0, [], false, t⟩).ExceedsLimit
        = false := costFold_flag _ _ _
    simp [hfl, h]

/-! ### Lemmas: plan context walker -/

theorem lookAhead_eq (c : OperationContext) (n : ℕ) (ls : List String) :
    lookAhead c n ls = ((ls.take n).takeWhile stillIndented).foldl childStep c := by
  induction n generalizing c ls with
  | zero => simp [lookAhead]
  | succ n ih =>
    cases ls with
    | nil => simp [lookAhead]
    | cons l ls' =>
      rw [lookAhead]
      by_cases h : stillIndented l
      · simp [h, List.takeWhile_cons, ih]
      · simp [h, List.takeWhile_cons]

theorem childStep_tableName (ctx : OperationContext) (l : String) :
    (childStep ctx l).TableName = ctx.TableName := by
  unfold childStep
  simp only []
  repeat' split
  all_goals rfl

theorem foldl_childStep_tableName (ls : List String) (c : OperationContext) :
    (ls.foldl childStep c).TableName = c.TableName := by
  induction ls generalizing c with
  | nil => rfl
  | cons l ls ih => rw [List.foldl_cons, ih, childStep_tableName]

theorem lookAhead_tableName (c : OperationContext) (n : ℕ) (ls : List String) :
    (lookAhead c n ls).TableName = c.TableName := by
  rw [lookAhead_eq, foldl_childStep_tableName]

theorem analyzeLine_some {lines : List String} {t : ℚ} {i : ℕ} {ctx : OperationContext}
    (h : analyzeLine lines t i = some ctx) :
    ∃ line cost, lines.get? i = some line ∧ lineCost line = some cost ∧
      ctx.TableName = (extractTableName line).getD "" := by
  unfold analyzeLine at h
  split at h
  · exact absurd h (by simp)
  · rename_i line hget
    split at h
    · exact absurd h (by simp)
    · split at h
      · exact absurd h (by simp)
      · rename_i cost hcost
        split at h
        · exact absurd h (by simp)
        · refine ⟨line, cost, hget, hcost, ?_⟩
          injection h with h
          rw [← h, lookAhead_tableName]
          rfl

theorem parseExplain_mem_tableName {plan : String} {t : ℚ} {ctx : OperationContext}
    (h : ctx ∈ parseExplainForIndexes plan t) :
    ∃ line, line ∈ goSplit plan '\n' ∧ ctx.TableName = (extractTableName line).getD "" := by
  unfold parseExplainForIndexes at h
  simp only [List.mem_filterMap] at h
  obtain ⟨i, _, hsome⟩ := h
  obtain ⟨line, cost, hget, _, htn⟩ := analyzeLine_some hsome
  exact ⟨line, List.get?_mem hget, htn⟩

/-! ### Lemmas: recommendation generator, deduplication -/

theorem pushRec_valid_new (st : List IndexRecommendation × List String)
    (rec : IndexRecommendation) (hv : validateRecommendation rec = true)
    (hn : ¬ recKey rec ∈ st.2) :
    pushRec st rec = (st.1 ++ [rec], st.2 ++ [recKey rec]) := by
  simp [pushRec, hv, hn]

theorem pushRec_stale (st : List IndexRecommendation × List String)
    (rec : IndexRecommendation)
    (h : validateRecommendation rec = false ∨ recKey rec ∈ st.2) :
    pushRec st rec = st := by
  rcases h with h | h <;> simp [pushRec, h]

theorem foldl_pushRec (cands : List IndexRecommendation)
    (acc : List IndexRecommendation) (seen1 seen2 : List String)
    (hs : ∀ k, k ∈ seen1 ↔ k ∈ seen2) :
    (cands.foldl pushRec (acc, seen1)).1 =
      acc ++ dedupByKey seen2 (cands.filter validateRecommendation) := by
  induction cands generalizing acc seen1 seen2 with
  | nil => simp [dedupByKey]
  | cons r rs ih =>
    rw [List.foldl_cons]
    cases hv : validateRecommendation r with
    | false =>
      rw [pushRec_stale _ _ (Or.inl hv), List.filter_cons_of_neg (by simp [hv])]
      exact ih acc seen1 seen2 hs
    | true =>
      rw [List.filter_cons_of_pos (by simp [hv])]
      by_cases hc : recKey r ∈ seen1
      · rw [pushRec_stale _ _ (Or.inr hc)]
        rw [dedupByKey]
        rw [if_pos (by simpa using (hs _).mp hc)]
        exact ih acc seen1 seen2 hs
      · rw [pushRec_valid_new _ _ hv hc]
        rw [dedupByKey]
        have hnm : recKey r ∉ seen2 := fun hm => hc ((hs _).mpr hm)
        rw [if_neg (by simpa using hnm)]
        have hs' : ∀ k, k ∈ seen1 ++ [recKey r] ↔ k ∈ recKey r :: seen2 := by
          intro k
          simp [hs k, or_comm]
        rw [ih (acc ++ [r]) _ _ hs']
        simp

theorem dedupedRecs_eq (contexts : List OperationContext) :
    dedupedRecs contexts =
      dedupByKey [] ((candidateRecs contexts).filter validateRecommendation) := by
  unfold dedupedRecs
  simpa using foldl_pushRec (candidateRecs contexts) [] [] [] (fun _ => Iff.rfl)

theorem dedupByKey_subset {seen : List String} {l : List IndexRecommendation}
    {r : IndexRecommendation} (h : r ∈ dedupByKey seen l) : r ∈ l := by
  induction l generalizing seen with
  | nil => simp [dedupByKey] at h
  | cons x xs ih =>
    rw [dedupByKey] at h
    split at h
    · exact List.mem_cons_of_mem x (ih h)
    · rcases List.mem_cons.mp h with rfl | h
      · exact List.mem_cons_self _ _
      · exact List.mem_cons_of_mem x (ih h)

theorem dedupByKey_unseen {seen : List String} {l : List IndexRecommendation}
    {r : IndexRecommendation} (h : r ∈ dedupByKey seen l) :
    ¬ recKey r ∈ seen := by
  induction l generalizing seen with
  | nil => simp [dedupByKey] at h
  | cons x xs ih =>
    rw [dedupByKey] at h
    split at h
    · exact ih h
    · rename_i hx
      rcases List.mem_cons.mp h with rfl | h
      · intro hmem
        exact hx (by simpa using hmem)
      · intro hmem
        exact ih h (List.mem_cons_of_mem _ hmem)

theorem dedupByKey_pairwise (seen : List String) (l : List IndexRecommendation) :
    (dedupByKey seen l).Pairwise (fun a b => recKey a ≠ recKey b) := by
  induction l generalizing seen with
  | nil => exact List.Pairwise.nil
  | cons x xs ih =>
    rw [dedupByKey]
    split
    · exact ih seen
    · refine List.pairwise_cons.mpr ⟨?_, ih _⟩
      intro b hb heq
      exact dedupByKey_unseen hb (heq ▸ List.mem_cons_self _ _)

theorem dedupedRecs_valid {contexts : List OperationContext}
    {r : IndexRecommendation} (h : r ∈ dedupedRecs contexts) :
    validateRecommendation r = true := by
  rw [dedupedRecs_eq] at h
  exact (List.mem_filter.mp (dedupByKey_subset h)).2

/-! ### Lemmas: recommendation generator, sorting -/

theorem recLE_refl (a : IndexRecommendation) : recLE a a :=
  Or.inr ⟨rfl, le_refl _⟩

theorem recLE_trans {a b c : IndexRecommendation} (h1 : recLE a b) (h2 : recLE b c) :
    recLE a c := by
  rcases h1 with h1 | ⟨h1, h1c⟩ <;> rcases h2 with h2 | ⟨h2, h2c⟩
  · exact Or.inl (h1.trans h2)
  · exact Or.inl (h2 ▸ h1)
  · exact Or.inl (h1 ▸ h2)
  · exact Or.inr ⟨h1.trans h2, h1c.trans h2c⟩

theorem swapNeeded_true {a b : IndexRecommendation} (h : swapNeeded a b = true) :
    recLE a b := by
  unfold swapNeeded at h
  simp only [Bool.or_eq_true, Bool.and_eq_true, decide_eq_true_eq] at h
  rcases h with h | ⟨h1, h2⟩
  · exact Or.inl h
  · exact Or.inr ⟨h1.symm, le_of_lt h2⟩

theorem swapNeeded_false {a b : IndexRecommendation} (h : swapNeeded a b = false) :
    recLE b a := by
  unfold swapNeeded at h
  simp only [Bool.or_eq_false_iff, Bool.and_eq_false_iff, decide_eq_false_iff_not,
    not_lt] at h
  obtain ⟨h1, h2⟩ := h
  rcases lt_or_eq_of_le h1 with hlt | heq
  · exact Or.inl hlt
  · rcases h2 with h2 | h2
    · exact absurd heq (by simpa using h2)
    · exact Or.inr ⟨heq, h2⟩

theorem selectPass_length (cur : IndexRecommendation) (l : List IndexRecommendation) :
    (selectPass cur l).2.length = l.length := by
  induction l generalizing cur with
  | nil => rfl
  | cons x xs ih =>
    rw [selectPass]
    split <;> simp [ih]

theorem selectPass_perm (cur : IndexRecommendation) (l : List IndexRecommendation) :
    List.Perm ((selectPass cur l).1 :: (selectPass cur l).2) (cur :: l) := by
  induction l generalizing cur with
  | nil => rfl
  | cons x xs ih =>
    rw [selectPass]
    split
    · exact (List.Perm.swap cur (selectPass x xs).1 (selectPass x xs).2).trans
        ((ih x).cons cur)
    · exact ((List.Perm.swap x (selectPass cur xs).1 (selectPass cur xs).2).trans
        ((ih cur).cons x)).trans (List.Perm.swap cur x xs)

theorem selectPass_max (cur : IndexRecommendation) (l : List IndexRecommendation) :
    recLE cur (selectPass cur l).1 ∧
      ∀ x ∈ (selectPass cur l).2, recLE x (selectPass cur l).1 := by
  induction l generalizing cur with
  | nil => exact ⟨recLE_refl cur, by intro x hx; cases hx⟩
  | cons x xs ih =>
    rw [selectPass]
    split <;> rename_i hsw
    · obtain ⟨hx, hall⟩ := ih x
      refine ⟨recLE_trans (swapNeeded_true hsw) hx, ?_⟩
      intro y hy
      rcases List.mem_cons.mp hy with rfl | hy
      · exact recLE_trans (swapNeeded_true hsw) hx
      · exact hall y hy
    · obtain ⟨hcur, hall⟩ := ih cur
      refine ⟨hcur, ?_⟩
      intro y hy
      rcases List.mem_cons.mp hy with rfl | hy
      · exact recLE_trans (swapNeeded_false (by simpa using hsw)) hcur
      · exact hall y hy

theorem sortPasses_perm (n : ℕ) (l : List IndexRecommendation) :
    List.Perm (sortPasses n l) l := by
  induction n generalizing l with
  | zero => rfl
  | succ n ih =>
    cases l with
    | nil => rfl
    | cons h t =>
      rw [sortPasses]
      exact ((ih (selectPass h t).2).cons (selectPass h t).1).trans (selectPass_perm h t)

theorem sortPasses_sorted (n : ℕ) (l : List IndexRecommendation) (hn : l.length ≤ n) :
    (sortPasses n l).Pairwise (fun a b => recLE b a) := by
  induction n generalizing l with
  | zero =>
    rw [Nat.le_zero, List.length_eq_zero] at hn
    subst hn
    exact List.Pairwise.nil
  | succ n ih =>
    cases l with
    | nil => exact List.Pairwise.nil
    | cons h t =>
      rw [sortPasses]
      refine List.pairwise_cons.mpr ⟨?_, ?_⟩
      · intro y hy
        exact (selectPass_max h t).2 y ((sortPasses_perm n _).mem_iff.mp hy)
      · exact ih _ (by rw [selectPass_length]; simpa using hn)

theorem sortRecommendations_perm (l : List IndexRecommendation) :
    List.Perm (sortRecommendations l) l := sortPasses_perm l.length l

theorem sortRecommendations_sorted (l : List IndexRecommendation) :
    (sortRecommendations l).Pairwise (fun a b => recLE b a) :=
  sortPasses_sorted l.length l (le_refl _)

/-! ### Lemmas: validation and generator structure -/

theorem validate_props {rec : IndexRecommendation}
    (h : validateRecommendation rec = true) :
    rec.TableName ≠ "" ∧ rec.Columns ≠ [] ∧
      (∀ col ∈ rec.Columns, validColumnName col = true) ∧
      goStartsWith rec.TableName "pg_catalog" = false ∧
      goStartsWith rec.TableName "information_schema" = false := by
  unfold validateRecommendation at h
  split_ifs at h with h1 h2 h3
  have h3' : goStartsWith rec.TableName "pg_catalog" = false ∧
      goStartsWith rec.TableName "information_schema" = false := by
    simpa [systemTables] using h3
  exact ⟨h1, by simpa using h2, by simpa [List.all_eq_true] using h, h3'.1, h3'.2⟩

theorem recKey_congr {a b : IndexRecommendation}
    (h : (a.TableName, a.Columns) = (b.TableName, b.Columns)) : recKey a = recKey b := by
  obtain ⟨h1, h2⟩ := Prod.mk.injEq _ _ _ _ |>.mp h
  unfold recKey
  rw [h1, h2]

theorem genRecs_recommendations (contexts : List OperationContext) (t : ℚ) :
    (generateIndexRecommendations contexts t).Recommendations =
      sortRecommendations (dedupedRecs contexts) := rfl

theorem contextCandidates_empty {ctx : OperationContext} (h : ctx.TableName = "") :
    contextCandidates ctx = [] := by
  simp [contextCandidates, h]

theorem genRecs_mem_valid {contexts : List OperationContext} {t : ℚ}
    {r : IndexRecommendation}
    (h : r ∈ (generateIndexRecommendations contexts t).Recommendations) :
    validateRecommendation r = true := by
  rw [genRecs_recommendations] at h
  exact dedupedRecs_valid ((sortRecommendations_perm _).mem_iff.mp h)

/-! ### Claim theorems -/

/-- C2: for every plan text and threshold, parseCost is a total function
(the embedding is a plain function, so it never raises), its TotalCost is
the running maximum (the fold of max over the whole scan) of the
parseable high costs, TotalCost is 0 and ExpensiveOps empty when no line
carries a parseable cost annotation, and for a non-empty parsed-cost list
TotalCost is one of the parsed high costs and an upper bound of all of
them. -/
theorem parseCost_total_is_running_max (plan : String) (t : ℚ) :
    (parseCost plan t).TotalCost = ((goSplit plan '\n').filterMap lineCost).foldl max 0 ∧
    ((goSplit plan '\n').filterMap lineCost = [] →
      (parseCost plan t).TotalCost = 0 ∧ (parseCost plan t).ExpensiveOps = []) ∧
    ((goSplit plan '\n').filterMap lineCost ≠ [] →
      (parseCost plan t).TotalCost ∈ (goSplit plan '\n').filterMap lineCost ∧
      ∀ c ∈ (goSplit plan '\n').filterMap lineCost, c ≤ (parseCost plan t).TotalCost) := by
  refine ⟨parseCost_total plan t, ?_, ?_⟩
  · intro hnil
    constructor
    · rw [parseCost_total, hnil]; rfl
    · rw [parseCost_ops]
      rw [List.filterMap_eq_nil_iff] at hnil ⊢
      intro line hline
      have hnone := hnil line hline
      unfold lineExpensive
      rw [hnone]
  · intro hne
    constructor
    · rw [parseCost_total]
      rcases foldlMax_eq_or_mem ((goSplit plan '\n').filterMap lineCost) 0 with h0 | hm
      · rcases List.exists_mem_of_ne_nil _ hne with ⟨c, hc⟩
        have hcle : c ≤ 0 := h0 ▸ foldlMax_mem_le _ 0 c hc
        have hcge : 0 ≤ c := by
          rcases List.mem_filterMap.mp hc with ⟨line, _, hsome⟩
          exact lineCost_nonneg hsome
        rw [h0, ← le_antisymm hcle hcge]
        exact hc
      · exact hm
    · intro c hc
      rw [parseCost_total]
      exact foldlMax_mem_le _ 0 c hc

/-- C2 witness: a plan with no cost annotation has TotalCost 0 and no
expensive operations. -/
theorem parseCost_total_is_running_max_witness :
    (parseCost "Result  (actual rows)" 3).TotalCost = 0 ∧
      (parseCost "Result  (actual rows)" 3).ExpensiveOps = [] :=
  (parseCost_total_is_running_max "Result  (actual rows)" 3).2.1 (by decide)

/-- C4: every collected expensive operation has cost at least the
threshold, and the ExpensiveOps list is exactly the in-order filterMap of
the per-line extraction over the plan lines, so it preserves the
top-to-bottom order of the input (it is not sorted by cost). -/
theorem expensiveOps_threshold_and_order (plan : String) (t : ℚ) :
    (∀ op ∈ (parseCost plan t).ExpensiveOps, t ≤ op.Cost) ∧
    (parseCost plan t).ExpensiveOps = (goSplit plan '\n').filterMap (lineExpensive t) := by
  refine ⟨?_, parseCost_ops plan t⟩
  intro op hop
  rw [parseCost_ops] at hop
  rcases List.mem_filterMap.mp hop with ⟨line, _, hsome⟩
  unfold lineExpensive at hsome
  split at hsome
  · split at hsome
    · injection hsome with hsome
      subst hsome
      assumption
    · exact absurd hsome (by simp)
  · exact absurd hsome (by simp)

/-- C4 witness: on a one-line plan with high cost 5 and threshold 2, the
collected operation is in the list and its cost is at least 2. -/
theorem expensiveOps_threshold_and_order_witness :
    (⟨"a (cost=1..5)", Rat.divInt 5 1, "a  (cost=1..5)"⟩ : ExpensiveOperation) ∈
        (parseCost "a  (cost=1..5)" 2).ExpensiveOps ∧
    (2 : ℚ) ≤ (⟨"a (cost=1..5)", Rat.divInt 5 1, "a  (cost=1..5)"⟩ : ExpensiveOperation).Cost :=
  ⟨by decide,
    (expensiveOps_threshold_and_order "a  (cost=1..5)" 2).1 _ (by decide)⟩

/-- C9: with threshold 0 the extractor always reports ExceedsLimit true,
because TotalCost is the fold of max seeded with 0 and hence never
negative. -/
theorem zero_threshold_always_exceeds (plan : String) :
    (parseCost plan 0).ExceedsLimit = true := by
  rw [parseCost_flag]
  rw [decide_eq_true_eq, parseCost_total]
  exact foldlMax_init_le _ 0

/-- C3 counterexample: a child line beginning with a single space does
not count as still indented for the source's boundary check, so the
walker with the claimed space-or-tab boundary disagrees with the source
on this concrete plan: the source gathers no filter column while the
claimed boundary gathers one. -/
theorem indent_boundary_counterexample :
    stillIndentedClaim " Filter: (a = 1)" = true ∧
    stillIndented " Filter: (a = 1)" = false ∧
    (parseExplainForIndexes "Seq Scan on t  (cost=0.00..10.00)\n Filter: (a = 1)" 0).map
        (fun c => c.FilterColumns) = [[]] ∧
    (parseExplainForIndexesClaim "Seq Scan on t  (cost=0.00..10.00)\n Filter: (a = 1)" 0).map
        (fun c => c.FilterColumns) = [["a"]] ∧
    parseExplainForIndexes "Seq Scan on t  (cost=0.00..10.00)\n Filter: (a = 1)" 0 ≠
      parseExplainForIndexesClaim "Seq Scan on t  (cost=0.00..10.00)\n Filter: (a = 1)" 0 := by
  exact ⟨by decide, by decide, by decide, by decide, by decide⟩

/-- C3 as amended: for a qualifying anchor line i the contextual
annotations are gathered by folding the child step over exactly the lines
i+1 through i+4, cut at the first line that is not still indented, where
still indented means beginning with two spaces or with a tab (a line
beginning with a single space followed by anything other than a space
ends the window). -/
theorem lookahead_window_two_space_boundary (lines : List String) (t : ℚ) (i : ℕ)
    (line : String) (cost : ℚ)
    (hget : lines.get? i = some line) (hblank : ¬ goTrimSpace line = "")
    (hcost : lineCost line = some cost) (hth : ¬ cost < t) :
    analyzeLine lines t i =
      some ((((lines.drop (i + 1)).take 4).takeWhile stillIndented).foldl childStep
        (mkBaseContext line cost)) := by
  unfold analyzeLine
  simp only [hget, hcost, if_neg hblank, if_neg hth]
  rw [lookAhead_eq]

/-- C3 witness: the amended window equation evaluated on a concrete
two-line plan whose child line is two-space indented. -/
theorem lookahead_window_two_space_boundary_witness :
    analyzeLine ["Seq Scan on t  (cost=0.00..10.00)", "  Filter: (a = 1)"] 0 0 =
      some ((((["Seq Scan on t  (cost=0.00..10.00)", "  Filter: (a = 1)"].drop 1).take 4).takeWhile
          stillIndented).foldl childStep
        (mkBaseContext "Seq Scan on t  (cost=0.00..10.00)" (Rat.divInt 10 1))) :=
  lookahead_window_two_space_boundary _ 0 0 _ _ (by decide) (by decide) (by decide) (by decide)

/-- C5: the deduplicated list kept by the generator is exactly the
first-occurrence-wins deduplication by key of the valid candidate stream
in generation order (across all rules), and consequently no two entries
of the final output share the same (tableName, columns) key. -/
theorem recommendations_dedup_first_wins (contexts : List OperationContext) (t : ℚ) :
    dedupedRecs contexts =
      dedupByKey [] ((candidateRecs contexts).filter validateRecommendation) ∧
    (generateIndexRecommendations contexts t).Recommendations.Pairwise
      (fun a b => (a.TableName, a.Columns) ≠ (b.TableName, b.Columns)) := by
  refine ⟨dedupedRecs_eq contexts, ?_⟩
  rw [genRecs_recommendations]
  have hp : (dedupedRecs contexts).Pairwise (fun a b => recKey a ≠ recKey b) := by
    rw [dedupedRecs_eq]
    exact dedupByKey_pairwise _ _
  have hps := ((sortRecommendations_perm (dedupedRecs contexts)).pairwise_iff
    (fun h e => h e.symm)).mpr hp
  exact hps.imp (fun h hpair => h (recKey_congr hpair))

/-- C6: every recommendation in the output has a non-empty table name, a
non-empty column list whose members all match the strict identifier
pattern, and a table name not starting with a reserved system-schema
name. -/
theorem recommendations_validated (contexts : List OperationContext) (t : ℚ)
    (r : IndexRecommendation)
    (hr : r ∈ (generateIndexRecommendations contexts t).Recommendations) :
    r.TableName ≠ "" ∧ r.Columns ≠ [] ∧
      (∀ col ∈ r.Columns, validColumnName col = true) ∧
      goStartsWith r.TableName "pg_catalog" = false ∧
      goStartsWith r.TableName "information_schema" = false :=
  validate_props (genRecs_mem_valid hr)

/-- C6 witness: the single recommendation generated from a concrete
sequential-scan context satisfies all validation properties. -/
theorem recommendations_validated_witness :
    let r : IndexRecommendation :=
      ⟨"users", ["status"], "BTREE", "Sequential scan with filter on \x27status\x27",
        "Seq Scan", Rat.divInt 600 1,
        "CREATE INDEX idx_users_status ON users USING BTREE (status);", 2⟩
    r.TableName ≠ "" ∧ r.Columns ≠ [] ∧
      (∀ col ∈ r.Columns, validColumnName col = true) ∧
      goStartsWith r.TableName "pg_catalog" = false ∧
      goStartsWith r.TableName "information_schema" = false :=
  recommendations_validated
    [⟨"Seq Scan on users  (cost=0.00..600.00)", "Seq Scan", "users", ["status"], [], [],
      Rat.divInt 600 1, 0⟩] 0
    ⟨"users", ["status"], "BTREE", "Sequential scan with filter on \x27status\x27",
      "Seq Scan", Rat.divInt 600 1,
      "CREATE INDEX idx_users_status ON users USING BTREE (status);", 2⟩
    (by decide)

/-- C7: the priority always lies in the range 1 to 5 and equals the
spec's closed formula: the cost tier rising to 2, 3, 4, 5 strictly above
500, 1000, 5000, 10000, plus 1 when rows exceed 100000, plus 1 for the
join rule, capped at 5. -/
theorem calculatePriority_range_and_tiers (cost : ℚ) (rows : ℤ) (k : String) :
    1 ≤ calculatePriority cost rows k ∧ calculatePriority cost rows k ≤ 5 ∧
      calculatePriority cost rows k = specPriority cost rows k := by
  unfold calculatePriority specPriority minInt
  simp only []
  split_ifs <;> omega

/-- C8: the final recommendation list is sorted descending by priority
with ties broken by descending operation cost, and is a permutation of
the deduplicated list (the whole pipeline being a pure function, the
ordering for a fixed input is one deterministic value). -/
theorem recommendations_sorted_desc (contexts : List OperationContext) (t : ℚ) :
    (generateIndexRecommendations contexts t).Recommendations.Pairwise
      (fun a b =>
        b.Priority < a.Priority ∨
          (b.Priority = a.Priority ∧ b.OperationCost ≤ a.OperationCost)) ∧
    List.Perm (generateIndexRecommendations contexts t).Recommendations
      (dedupedRecs contexts) := by
  rw [genRecs_recommendations]
  exact ⟨sortRecommendations_sorted _, sortRecommendations_perm _⟩

/-- C10: a context with an empty table name contributes no candidate from
any rule (the generator skips it before the rules), so prepending it
leaves the output unchanged; and any context produced by the walker with
a non-empty table name owes it to a line of the plan matched by the
scan-kind table pattern. -/
theorem empty_tableName_no_recommendations :
    (∀ ctx : OperationContext, ctx.TableName = "" → contextCandidates ctx = []) ∧
    (∀ (ctx : OperationContext) (contexts : List OperationContext) (t : ℚ),
      ctx.TableName = "" →
      generateIndexRecommendations (ctx :: contexts) t =
        generateIndexRecommendations contexts t) ∧
    (∀ (plan : String) (t : ℚ) (ctx : OperationContext),
      ctx ∈ parseExplainForIndexes plan t → ctx.TableName ≠ "" →
      ∃ line, line ∈ goSplit plan '\n' ∧ extractTableName line = some ctx.TableName) := by
  refine ⟨fun ctx h => contextCandidates_empty h, ?_, ?_⟩
  · intro ctx ctxs t h
    unfold generateIndexRecommendations dedupedRecs candidateRecs
    simp [contextCandidates_empty h]
  · intro plan t ctx hmem hne
    obtain ⟨line, hline, htn⟩ := parseExplain_mem_tableName hmem
    cases he : extractTableName line with
    | none =>
      rw [he] at htn
      exact absurd htn hne
    | some s =>
      rw [he] at htn
      exact ⟨line, hline, by rw [htn]; exact he⟩

/-- C10 witness: a Hash Join context with join columns but no table name
contributes nothing, and the table name of the context parsed from a
scan line comes from the table pattern on that line. -/
theorem empty_tableName_no_recommendations_witness :
    contextCandidates
      ⟨"Hash Join  (cost=125.00..850.25)", "Hash Join", "", [],
        ["orders.user_id", "users.id"], [], Rat.divInt 3401 4, 0⟩ = [] ∧
    (∃ line, line ∈ goSplit "Seq Scan on t  (cost=0.00..10.00)" '\n' ∧
      extractTableName line =
        some (⟨"Seq Scan on t  (cost=0.00..10.00)", "Seq Scan", "t", [], [], [],
          Rat.divInt 10 1, 0⟩ : OperationContext).TableName) :=
  ⟨empty_tableName_no_recommendations.1 _ rfl,
    empty_tableName_no_recommendations.2.2 "Seq Scan on t  (cost=0.00..10.00)" 0
      ⟨"Seq Scan on t  (cost=0.00..10.00)", "Seq Scan", "t", [], [], [], Rat.divInt 10 1, 0⟩
      (by decide) (by decide)⟩

/-- C1 (divergence of the code from the spec example): on the two-line
Hash Join plan with threshold 0 the walker produces exactly one context,
with operation type Hash Join, both join columns, but an empty table name
(the table pattern only matches scan lines), so the generator skips it
and the pipeline returns zero recommendations instead of the two the
spec example expects. -/
theorem hashJoinExample_yields_no_recommendations :
    (parseExplainForIndexes
        "Hash Join  (cost=125.00..850.25 rows=10000 width=100)\n  Hash Cond: (orders.user_id = users.id)"
        0).map (fun c => (c.TableName, c.OperationType, c.JoinColumns)) =
      [("", "Hash Join", ["orders.user_id", "users.id"])] ∧
    (analyzeIndexOpportunities
        "Hash Join  (cost=125.00..850.25 rows=10000 width=100)\n  Hash Cond: (orders.user_id = users.id)"
        0).Recommendations = [] ∧
    (analyzeIndexOpportunities
        "Hash Join  (cost=125.00..850.25 rows=10000 width=100)\n  Hash Cond: (orders.user_id = users.id)"
        0).TotalFound = 0 :=
  ⟨by decide, by decide, by decide⟩
